import Mathlib

set_option maxRecDepth 100000

/-!
Verification of the Caesar-cipher decoder and text-statistics core of the
`secret-message-decoder` repository (`src/modules/cipher.py` and
`src/modules/text_analyzer.py`).

Strings are modelled as lists of Unicode code points (`List Nat`).  The
CPython character predicates (`str.isalpha`, `str.isupper`, `str.isdigit`,
`str.isspace`, `str.lower`) are modelled exactly on the code points below
`0x100` (ASCII and Latin-1); code points at `0x100` and above are treated
as non-alphabetic, non-digit, non-space and case-less, which is the only
part of the Unicode tables the development needs.  Python `float` scores
are modelled as exact rationals (`ℚ`); every score in the program is a
ratio of two small naturals, so no rounding behaviour is exercised.
-/

/-- A Python string, as the list of its Unicode code points. -/
abbrev Str : Type := List Nat

/-- Code points of a Lean string literal, for writing concrete inputs. -/
def S (s : String) : Str := s.data.map Char.toNat

/-- Model of CPython `str.isalpha` on code points below 0x100: the ASCII
letters, `ª` (0xAA), `µ` (0xB5), `º` (0xBA) and the Latin-1 letters
0xC0–0xFF except `×` (0xD7) and `÷` (0xF7). -/
def pyIsAlpha (c : Nat) : Bool :=
  decide ((65 ≤ c ∧ c ≤ 90) ∨ (97 ≤ c ∧ c ≤ 122) ∨ c = 0xAA ∨ c = 0xB5 ∨ c = 0xBA ∨
    (0xC0 ≤ c ∧ c ≤ 0xFF ∧ c ≠ 0xD7 ∧ c ≠ 0xF7))

/-- Model of CPython `str.isupper` (on one character) below 0x100:
`A`–`Z` and `À`–`Þ` (0xC0–0xDE) except `×` (0xD7). -/
def pyIsUpper (c : Nat) : Bool :=
  decide ((65 ≤ c ∧ c ≤ 90) ∨ (0xC0 ≤ c ∧ c ≤ 0xDE ∧ c ≠ 0xD7))

/-- Model of CPython `str.isdigit` below 0x100: `0`–`9` and the
superscripts `²` (0xB2), `³` (0xB3), `¹` (0xB9). -/
def pyIsDigit (c : Nat) : Bool :=
  decide ((48 ≤ c ∧ c ≤ 57) ∨ c = 0xB2 ∨ c = 0xB3 ∨ c = 0xB9)

/-- Model of the whitespace class used by CPython `str.split()` below
0x100: tab–carriage return (9–13), the separators 28–31, space (32),
next line (0x85) and no-break space (0xA0). -/
def pyIsSpace (c : Nat) : Bool :=
  decide ((9 ≤ c ∧ c ≤ 13) ∨ (28 ≤ c ∧ c ≤ 31) ∨ c = 32 ∨ c = 0x85 ∨ c = 0xA0)

/-- Model of CPython `str.lower` on one code point below 0x100:
`A`–`Z` and `À`–`Þ` (except `×`) move down by adding 32 to reach their
lowercase partner; everything else is unchanged. -/
def pyToLower (c : Nat) : Nat :=
  if (65 ≤ c ∧ c ≤ 90) ∨ (192 ≤ c ∧ c ≤ 222 ∧ c ≠ 215) then c + 32 else c

/-- Membership in Python's `string.punctuation` (exactly the 32 ASCII
punctuation code points 33–47, 58–64, 91–96, 123–126). -/
def isPunct (c : Nat) : Bool :=
  decide ((33 ≤ c ∧ c ≤ 47) ∨ (58 ≤ c ∧ c ≤ 64) ∨ (91 ≤ c ∧ c ≤ 96) ∨ (123 ≤ c ∧ c ≤ 126))

/-- Accumulator-based worker for `pySplit`; `cur` holds the characters of
the word currently being read, in reverse. -/
def splitAux : List Nat → List Nat → List Str
  | [], cur => if cur = [] then [] else [cur.reverse]
  | c :: rest, cur =>
    if pyIsSpace c then
      if cur = [] then splitAux rest [] else cur.reverse :: splitAux rest []
    else splitAux rest (c :: cur)

/-- Model of CPython `str.split()` with no argument: split on runs of
whitespace, discarding empty pieces. -/
def pySplit (s : Str) : List Str := splitAux s []

/-- Model of `w.strip(string.punctuation)`: drop punctuation from both
ends of the token. -/
def pyStrip (w : Str) : Str :=
  ((w.dropWhile isPunct).reverse.dropWhile isPunct).reverse

/-- The fixed reference set `COMMON_ENGLISH_WORDS` of `cipher.py`
(membership is all the program uses, so a list models the Python set). -/
def COMMON_ENGLISH_WORDS : List Str :=
  [S ("the"), S ("and"), S ("is"), S ("message"), S ("secret"), S ("to"), S ("of"),
   S ("in"), S ("for"), S ("on"), S ("with"), S ("at"), S ("by"), S ("from"), S ("this")]

/-- One character of `encrypt_text`'s loop: alphabetic characters move by
`s` inside the case range chosen by `isupper`, everything else passes
through.  `s` is the already-normalised shift in `[0, 26)`.  Every
alphabetic code point sits at or above the base its case selects (the
only alphabetic code points below 97 are `A`–`Z`, which take base 65), so
Python's integer `ord(ch) - base` never goes negative and natural-number
subtraction is exact. -/
def shiftChar (s : Nat) (c : Nat) : Nat :=
  if pyIsAlpha c then
    let base : Nat := if pyIsUpper c then 65 else 97
    (c - base + s) % 26 + base
  else c

/-- `encrypt_text(text, shift)` of `cipher.py`: normalise the shift with
`shift % 26` (Python `%` on a positive modulus, i.e. `Int.emod`) and
shift each character. -/
def encrypt_text (text : Str) (shift : Int) : Str :=
  text.map (shiftChar (shift % 26).toNat)

/-- `decrypt_text(text, shift)` of `cipher.py`: encryption with the
negated shift. -/
def decrypt_text (text : Str) (shift : Int) : Str :=
  encrypt_text text (-shift)

/-- `calculate_word_score(text)` of `cipher.py`: lower-case the text,
split on whitespace, strip punctuation from each token, drop empty
tokens, and return matches-with-reference-set over token count. -/
def calculate_word_score (text : Str) : ℚ :=
  let words := pySplit (text.map pyToLower)
  if words = [] then 0
  else
    let cleaned := (words.map pyStrip).filter (fun w => !w.isEmpty)
    if cleaned = [] then 0
    else
      ((cleaned.countP (fun w => COMMON_ENGLISH_WORDS.contains w) : ℚ)) / (cleaned.length : ℚ)

/-- One entry of `brute_force_decrypt`'s attempt list: the tuple
`(shift, decrypted, score)` appended by the loop body. -/
abbrev Attempt : Type := Nat × Str × ℚ

/-- The 26 attempts recorded by `brute_force_decrypt`'s loop, in the
loop's ascending shift order. -/
def attemptsFor (text : Str) : List Attempt :=
  (List.range 26).map fun s =>
    (s, decrypt_text text (s : Int), calculate_word_score (decrypt_text text (s : Int)))

/-- The running-best update of `brute_force_decrypt`'s loop body: replace
the best only when the new score is strictly greater (`score > best_score`).
The state is `(best_score, best_shift, best_text)`. -/
def bestStep (acc : ℚ × Option Nat × Option Str) (a : Attempt) : ℚ × Option Nat × Option Str :=
  if a.2.2 > acc.1 then (a.2.2, some a.1, some a.2.1) else acc

/-- Insert one attempt into an already-descending list, after every entry
whose score is at least as large.  Together with `pySortDesc` this models
Python's stable `attempts.sort(key=lambda x: x[2], reverse=True)`. -/
def insertDesc (x : Attempt) : List Attempt → List Attempt
  | [] => [x]
  | y :: ys => if x.2.2 > y.2.2 then x :: y :: ys else y :: insertDesc x ys

/-- Stable descending sort by score, processing the list left to right so
that, among equal scores, earlier entries stay earlier, exactly as
Python's stable `list.sort(..., reverse=True)` behaves. -/
def pySortDesc (l : List Attempt) : List Attempt :=
  l.foldl (fun acc x => insertDesc x acc) []

/-- `brute_force_decrypt(encrypted_text)` of `cipher.py` (the `verbose`
branch only prints): returns `(best_text, best_shift, attempts)` with the
attempt list sorted by score, highest first. -/
def brute_force_decrypt (text : Str) : Option Str × Option Nat × List Attempt :=
  let atts := attemptsFor text
  let best := atts.foldl bestStep (0, none, none)
  (best.2.2, best.2.1, pySortDesc atts)

/-- Worker for `get_shift_between_texts`: walk the zipped character
pairs; at the first pair of two alphabetic characters, fail on a case
mismatch, otherwise compute the candidate shift and verify it encrypts
the whole original to the whole encrypted text.  Both branches of the
source's `if orig_ch.isupper()` compute the same expression, kept here as
written. -/
def getShiftAux (original encrypted : Str) : List (Nat × Nat) → Option Int
  | [] => none
  | (oc, ec) :: rest =>
    if pyIsAlpha oc && pyIsAlpha ec then
      if pyIsUpper oc != pyIsUpper ec then none
      else
        let shift : Int :=
          if pyIsUpper oc then ((ec : Int) - (oc : Int)) % 26
          else ((ec : Int) - (oc : Int)) % 26
        if encrypt_text original shift = encrypted then some shift else none
    else getShiftAux original encrypted rest

/-- `get_shift_between_texts(original, encrypted)` of `cipher.py`. -/
def get_shift_between_texts (original encrypted : Str) : Option Int :=
  getShiftAux original encrypted (original.zip encrypted)

/-- The code points of `aeiouAEIOU`, the vowel reference string of
`text_analyzer.py`. -/
def isVowelChar (c : Nat) : Bool :=
  [97, 101, 105, 111, 117, 65, 69, 73, 79, 85].contains c

/-- One step of `analyze_text`'s word-length-distribution loop:
`length_dist[l] = length_dist.get(l, 0) + 1` on an association list in
first-insertion key order. -/
def bumpKey (l : Nat) : List (Nat × Nat) → List (Nat × Nat)
  | [] => [(l, 1)]
  | (k, v) :: rest => if k = l then (k, v + 1) :: rest else (k, v) :: bumpKey l rest

/-- Insert one pair into a key-sorted association list (keys are distinct
in every use, so this is exactly Python's `sorted` on dict items). -/
def insertKey (p : Nat × Nat) : List (Nat × Nat) → List (Nat × Nat)
  | [] => [p]
  | q :: rest => if p.1 ≤ q.1 then p :: q :: rest else q :: insertKey p rest

/-- `dict(sorted(length_dist.items()))`: the distribution in ascending
key order. -/
def sortByKey (l : List (Nat × Nat)) : List (Nat × Nat) :=
  l.foldr insertKey []

/-- The palindrome test of `analyze_text`'s loop: keep the alphabetic
characters, lower-case them, and require a nonempty cleaned form of
length above one reading the same in both directions. -/
def isPalindromeToken (w : Str) : Bool :=
  let clean := (w.filter pyIsAlpha).map pyToLower
  !clean.isEmpty && clean == clean.reverse && decide (1 < clean.length)

/-- The fields of the dictionary built by `analyze_text` that this
development's claims mention; each field is computed exactly as the
source computes the corresponding dictionary entry. -/
structure Analysis where
  word_count : Nat
  average_word_length : ℚ
  vowel_percentage : ℚ
  word_length_distribution : List (Nat × Nat)
  alphabetic_character_count : Nat
  digit_count : Nat
  palindrome_words : List Str

/-- `analyze_text(text)` of `text_analyzer.py`, restricted to the fields
of `Analysis`. -/
def analyze_text (text : Str) : Analysis :=
  let words := pySplit text
  { word_count := words.length
    average_word_length :=
      if words = [] then 0 else ((words.map List.length).sum : ℚ) / (words.length : ℚ)
    vowel_percentage :=
      if 0 < text.countP pyIsAlpha then
        ((text.countP isVowelChar : ℚ) / (text.countP pyIsAlpha : ℚ)) * 100
      else 0
    word_length_distribution := sortByKey (words.foldl (fun acc w => bumpKey w.length acc) [])
    alphabetic_character_count := text.countP pyIsAlpha
    digit_count := text.countP pyIsDigit
    palindrome_words := words.filter isPalindromeToken }

/-- The extra percentage fields added by `TextAnalyzer.full_analysis`.
Python's `int(...)` truncation on the nonnegative `vowel_count` value is
the floor. -/
structure FullAnalysis where
  base : Analysis
  vowel_count : Int
  letter_percentage : ℚ
  digit_percentage : ℚ
  space_percentage : ℚ

/-- `TextAnalyzer.full_analysis(text)` of `text_analyzer.py`, restricted
to the fields the claims mention (`text.count(' ')` is the number of
space characters). -/
def full_analysis (text : Str) : FullAnalysis :=
  let analysis := analyze_text text
  let total := text.length
  { base := analysis
    vowel_count :=
      if 0 < analysis.alphabetic_character_count then
        ⌊analysis.vowel_percentage * (analysis.alphabetic_character_count : ℚ) / 100⌋
      else 0
    letter_percentage :=
      if 0 < total then (analysis.alphabetic_character_count : ℚ) / (total : ℚ) * 100 else 0
    digit_percentage :=
      if 0 < total then (analysis.digit_count : ℚ) / (total : ℚ) * 100 else 0
    space_percentage :=
      if 0 < total then (text.countP (fun c => c == 32) : ℚ) / (total : ℚ) * 100 else 0 }

/-- The score as the specification words it: whitespace-split,
lower-cased, punctuation-stripped non-empty tokens; matches with the
reference set over total tokens; `0` when there are no cleaned tokens. -/
def specScore (text : Str) : ℚ :=
  let toks := ((pySplit text).map fun w => pyStrip (w.map pyToLower)).filter (fun w => !w.isEmpty)
  if toks = [] then 0
  else (toks.countP (fun w => COMMON_ENGLISH_WORDS.contains w) : ℚ) / (toks.length : ℚ)

/-- The ranking order of the returned attempt list: strictly
higher score first; equal scores ordered by strictly lower shift. -/
def rankedBefore (a b : Attempt) : Prop :=
  b.2.2 < a.2.2 ∨ (a.2.2 = b.2.2 ∧ a.1 < b.1)

/-- The joint state of the running best of `brute_force_decrypt` and of the
head of the stable descending sort: either nothing has scored above zero
and the best is still the initial `(0.0, None, None)`, or the best is the
first attempt of maximal score and it heads the sorted list. -/
def decodeInv (l : List Attempt) : Prop :=
  (l.foldl bestStep (0, none, none) = (0, none, none) ∧ ∀ a ∈ l, a.2.2 ≤ 0) ∨
  (∃ s t b, 0 < b ∧ l.foldl bestStep (0, none, none) = (b, some s, some t) ∧
    (pySortDesc l).head? = some (s, t, b))

/-- Lower-casing never moves a code point into or out of the whitespace
class. -/
theorem pyIsSpace_pyToLower (c : Nat) : pyIsSpace (pyToLower c) = pyIsSpace c := by
  simp only [pyIsSpace, pyToLower, decide_eq_decide]
  split_ifs <;> omega

/-- Lower-casing never moves a code point into or out of the punctuation
class. -/
theorem isPunct_pyToLower (c : Nat) : isPunct (pyToLower c) = isPunct c := by
  simp only [isPunct, pyToLower, decide_eq_decide]
  split_ifs <;> omega

/-- `splitAux` commutes with character-wise lower-casing. -/
theorem splitAux_map_pyToLower (s : List Nat) :
    ∀ cur : List Nat,
      splitAux (s.map pyToLower) (cur.map pyToLower) =
        (splitAux s cur).map (List.map pyToLower) := by
  induction s with
  | nil =>
    intro cur
    simp only [List.map_nil, splitAux, List.map_eq_nil_iff]
    split_ifs with h
    · simp
    · simp only [List.map_cons, List.map_nil, List.map_reverse]
  | cons c rest ih =>
    intro cur
    simp only [List.map_cons, splitAux, pyIsSpace_pyToLower, List.map_eq_nil_iff]
    split_ifs with h1 h2
    · simpa using ih []
    · simp only [List.map_cons, List.map_reverse]
      rw [show splitAux (List.map pyToLower rest) [] = (splitAux rest []).map (List.map pyToLower)
        from by simpa using ih []]
    · exact ih (c :: cur)

/-- `str.split()` commutes with `str.lower()`. -/
theorem pySplit_map_pyToLower (t : Str) :
    pySplit (t.map pyToLower) = (pySplit t).map (List.map pyToLower) := by
  unfold pySplit
  simpa using splitAux_map_pyToLower t []

/-- The code's score agrees with the specification-worded score. -/
theorem calculate_word_score_eq_specScore (t : Str) :
    calculate_word_score t = specScore t := by
  simp only [calculate_word_score, specScore]
  rw [pySplit_map_pyToLower, List.map_map]
  by_cases h : pySplit t = []
  · simp [h]
  · have hmaps : ((pySplit t).map (List.map pyToLower)) ≠ [] := by
      simpa [List.map_eq_nil_iff] using h
    rw [if_neg hmaps]
    rfl

/-- Scores are nonnegative. -/
theorem calculate_word_score_nonneg (t : Str) : 0 ≤ calculate_word_score t := by
  simp only [calculate_word_score]
  split_ifs with h1 h2
  · exact le_refl 0
  · exact le_refl 0
  · positivity

/-- Scores never exceed one. -/
theorem calculate_word_score_le_one (t : Str) : calculate_word_score t ≤ 1 := by
  simp only [calculate_word_score]
  split_ifs with h1 h2
  · exact zero_le_one
  · exact zero_le_one
  · rw [div_le_one (by exact_mod_cast List.length_pos.mpr h2)]
    exact_mod_cast List.countP_le_length _

/-- An attempt that ranks earlier carries a score at least as large. -/
theorem score_le_of_rankedBefore {a b : Attempt} (h : rankedBefore a b) :
    b.2.2 ≤ a.2.2 := by
  rcases h with h | ⟨h, _⟩
  · exact le_of_lt h
  · exact le_of_eq h.symm

/-- Membership in an `insertDesc` result. -/
theorem mem_insertDesc (x : Attempt) (l : List Attempt) (a : Attempt) :
    a ∈ insertDesc x l ↔ a = x ∨ a ∈ l := by
  induction l with
  | nil => simp [insertDesc]
  | cons y ys ih =>
    unfold insertDesc
    split_ifs with h
    · exact List.mem_cons
    · rw [List.mem_cons, ih, List.mem_cons]
      tauto

/-- `insertDesc` only repositions its argument. -/
theorem insertDesc_perm (x : Attempt) (l : List Attempt) :
    List.Perm (insertDesc x l) (x :: l) := by
  induction l with
  | nil => simp [insertDesc]
  | cons y ys ih =>
    unfold insertDesc
    split_ifs with h
    · exact List.Perm.refl _
    · exact (List.Perm.cons y ih).trans (List.Perm.swap x y ys)

/-- The insertion fold permutes the accumulator followed by the input. -/
theorem foldl_insertDesc_perm (l : List Attempt) :
    ∀ acc : List Attempt, List.Perm (l.foldl (fun acc x => insertDesc x acc) acc) (acc ++ l) := by
  induction l with
  | nil => intro acc; simp
  | cons x xs ih =>
    intro acc
    simp only [List.foldl_cons]
    refine (ih (insertDesc x acc)).trans ?_
    refine (List.Perm.append_right xs (insertDesc_perm x acc)).trans ?_
    exact List.perm_middle.symm

/-- The sorted attempt list is a permutation of the attempt list. -/
theorem pySortDesc_perm (l : List Attempt) : List.Perm (pySortDesc l) l := by
  unfold pySortDesc
  simpa using foldl_insertDesc_perm l []

/-- Inserting an attempt whose shift is above every shift already present
preserves the ranking order. -/
theorem pairwise_insertDesc {x : Attempt} {l : List Attempt}
    (hl : l.Pairwise rankedBefore) (hsh : ∀ y ∈ l, y.1 < x.1) :
    (insertDesc x l).Pairwise rankedBefore := by
  induction l with
  | nil => simp [insertDesc]
  | cons y ys ih =>
    rw [List.pairwise_cons] at hl
    obtain ⟨hy, hys⟩ := hl
    unfold insertDesc
    split_ifs with h
    · refine List.Pairwise.cons ?_ (List.Pairwise.cons hy hys)
      intro z hz
      rcases List.mem_cons.mp hz with rfl | hz2
      · exact Or.inl h
      · exact Or.inl (lt_of_le_of_lt (score_le_of_rankedBefore (hy z hz2)) h)
    · refine List.Pairwise.cons ?_ (ih hys fun z hz => hsh z (List.mem_cons_of_mem y hz))
      intro z hz
      rcases (mem_insertDesc x ys z).mp hz with rfl | hz2
      · rcases lt_or_eq_of_le (not_lt.mp h) with hlt | heq
        · exact Or.inl hlt
        · exact Or.inr ⟨heq.symm, hsh y (List.mem_cons_self y ys)⟩
      · exact hy z hz2

/-- The insertion fold of `pySortDesc` produces a ranked list whenever
the input shifts are strictly increasing, as in the loop. -/
theorem foldl_insertDesc_pairwise (l : List Attempt) :
    ∀ acc : List Attempt, acc.Pairwise rankedBefore →
      l.Pairwise (fun a b => a.1 < b.1) →
      (∀ y ∈ acc, ∀ x ∈ l, y.1 < x.1) →
      (l.foldl (fun acc x => insertDesc x acc) acc).Pairwise rankedBefore := by
  induction l with
  | nil => intro acc h _ _; simpa using h
  | cons x xs ih =>
    intro acc hacc hl hmix
    rw [List.pairwise_cons] at hl
    simp only [List.foldl_cons]
    apply ih
    · exact pairwise_insertDesc hacc fun y hy => hmix y hy x (List.mem_cons_self x xs)
    · exact hl.2
    · intro y hy z hz
      rcases (mem_insertDesc x acc y).mp hy with rfl | hy2
      · exact hl.1 z hz
      · exact hmix y hy2 z (List.mem_cons_of_mem x hz)

/-- The loop records attempts with strictly increasing shifts. -/
theorem attemptsFor_pairwise_shift (text : Str) :
    (attemptsFor text).Pairwise (fun a b => a.1 < b.1) := by
  unfold attemptsFor
  exact (List.pairwise_lt_range 26).map _ fun a b h => h

/-- Every recorded attempt pairs a shift below 26 with its decryption and
the score of that decryption. -/
theorem mem_attemptsFor {text : Str} {a : Attempt} (h : a ∈ attemptsFor text) :
    a.1 < 26 ∧ a.2.1 = decrypt_text text (a.1 : Int) ∧
      a.2.2 = calculate_word_score (decrypt_text text (a.1 : Int)) := by
  unfold attemptsFor at h
  obtain ⟨i, hi, rfl⟩ := List.mem_map.mp h
  exact ⟨List.mem_range.mp hi, rfl, rfl⟩

/-- When no attempt beats the running best, the fold keeps its state. -/
theorem foldl_bestStep_const (l : List Attempt) :
    ∀ (b : ℚ) (cur : Option Nat × Option Str), (∀ a ∈ l, a.2.2 ≤ b) →
      l.foldl bestStep (b, cur) = (b, cur) := by
  induction l with
  | nil => intro b cur _; rfl
  | cons x xs ih =>
    intro b cur h
    simp only [List.foldl_cons]
    rw [show bestStep (b, cur) x = (b, cur) from by
      unfold bestStep
      exact if_neg (not_lt.mpr (h x (List.mem_cons_self x xs)))]
    exact ih b cur fun a ha => h a (List.mem_cons_of_mem x ha)

/-- The decoder invariant holds of every attempt prefix: the strict
running-best rule and the stable descending sort agree on the winner. -/
theorem decodeInv_holds (l : List Attempt) : decodeInv l := by
  induction l using List.reverseRecOn with
  | nil => exact Or.inl ⟨rfl, by simp⟩
  | append_singleton l x ih =>
    have hfold : (l ++ [x]).foldl bestStep (0, none, none) =
        bestStep (l.foldl bestStep (0, none, none)) x := by
      rw [List.foldl_append]
      rfl
    have hsort : pySortDesc (l ++ [x]) = insertDesc x (pySortDesc l) := by
      unfold pySortDesc
      rw [List.foldl_append]
      rfl
    rcases ih with ⟨hst, hall⟩ | ⟨s, t, b, hb, hst, hhead⟩
    · by_cases hx : x.2.2 > 0
      · refine Or.inr ⟨x.1, x.2.1, x.2.2, hx, ?_, ?_⟩
        · rw [hfold, hst]
          unfold bestStep
          exact if_pos hx
        · rw [hsort]
          cases hsd : pySortDesc l with
          | nil => simp [insertDesc]
          | cons y ys =>
            have hy_mem : y ∈ l :=
              (pySortDesc_perm l).subset (hsd ▸ List.mem_cons_self y ys)
            unfold insertDesc
            rw [if_pos (lt_of_le_of_lt (hall y hy_mem) hx)]
            simp
      · refine Or.inl ⟨?_, ?_⟩
        · rw [hfold, hst]
          unfold bestStep
          exact if_neg hx
        · intro a ha
          rcases List.mem_append.mp ha with h1 | h2
          · exact hall a h1
          · rw [List.mem_singleton.mp h2]
            exact not_lt.mp hx
    · obtain ⟨ys, hys⟩ : ∃ ys, pySortDesc l = (s, t, b) :: ys := by
        cases hsd : pySortDesc l with
        | nil => rw [hsd] at hhead; simp at hhead
        | cons y ys =>
          rw [hsd] at hhead
          simp only [List.head?_cons, Option.some.injEq] at hhead
          exact ⟨ys, by rw [hhead]⟩
      by_cases hx : x.2.2 > b
      · refine Or.inr ⟨x.1, x.2.1, x.2.2, lt_trans hb hx, ?_, ?_⟩
        · rw [hfold, hst]
          unfold bestStep
          exact if_pos hx
        · rw [hsort, hys]
          unfold insertDesc
          rw [if_pos hx]
          simp
      · refine Or.inr ⟨s, t, b, hb, ?_, ?_⟩
        · rw [hfold, hst]
          unfold bestStep
          exact if_neg hx
        · rw [hsort, hys]
          unfold insertDesc
          rw [if_neg hx]
          simp

/-- Soundness of the verification step inside `get_shift_between_texts`:
a returned shift always lies in `[0, 26)` and reproduces the encrypted
text in full. -/
theorem getShiftAux_sound (o e : Str) :
    ∀ (ps : List (Nat × Nat)) (s : Int), getShiftAux o e ps = some s →
      0 ≤ s ∧ s < 26 ∧ encrypt_text o s = e := by
  intro ps
  induction ps with
  | nil => intro s h; simp [getShiftAux] at h
  | cons p rest ih =>
    obtain ⟨oc, ec⟩ := p
    intro s h
    simp only [getShiftAux, ite_self] at h
    by_cases h1 : (pyIsAlpha oc && pyIsAlpha ec) = true
    · rw [if_pos h1] at h
      by_cases h2 : (pyIsUpper oc != pyIsUpper ec) = true
      · rw [if_pos h2] at h
        exact absurd h (by simp)
      · rw [if_neg h2] at h
        by_cases h3 : encrypt_text o (((ec : Int) - (oc : Int)) % 26) = e
        · rw [if_pos h3] at h
          obtain rfl := Option.some.inj h
          exact ⟨by omega, by omega, h3⟩
        · rw [if_neg h3] at h
          exact absurd h (by simp)
    · rw [if_neg h1] at h
      exact ih s h

/-- Non-alphabetic characters pass through `shiftChar` unchanged. -/
theorem shiftChar_not_alpha {c : Nat} (h : pyIsAlpha c = false) (s : Nat) :
    shiftChar s c = c := by
  simp [shiftChar, h]

/-- Shifting by `n` and then by `-n` restores any ASCII Latin letter. -/
theorem shiftChar_roundtrip (n : Int) {c : Nat}
    (h : (65 ≤ c ∧ c ≤ 90) ∨ (97 ≤ c ∧ c ≤ 122)) :
    shiftChar ((-n) % 26).toNat (shiftChar (n % 26).toNat c) = c := by
  simp only [shiftChar, pyIsAlpha, pyIsUpper, decide_eq_true_eq]
  split_ifs <;> omega

/-- Mapping a function that fixes every element of a list is the
identity. -/
theorem map_eq_self_of_mem {l : List Nat} {f : Nat → Nat} (h : ∀ c ∈ l, f c = c) :
    l.map f = l := by
  induction l with
  | nil => rfl
  | cons c rest ih =>
    simp only [List.map_cons, List.cons.injEq]
    exact ⟨h c (List.mem_cons_self c rest), ih fun d hd => h d (List.mem_cons_of_mem c hd)⟩

/-- C1: for the plaintext `p = "the message is secret and this is for the"`
(built only from reference-list words) and `c = shift(p, 7)`, the decoder
returns `bestShift = 7` and `bestPlaintext = p`. -/
theorem spec_c1 :
    (brute_force_decrypt
        (encrypt_text (S ("the message is secret and this is for the")) 7)).2.1 = some 7 ∧
    (brute_force_decrypt
        (encrypt_text (S ("the message is secret and this is for the")) 7)).1 =
      some (S ("the message is secret and this is for the")) := by
  with_unfolding_all decide

/-- C4 counterexample: the claim quantifies over all text, but the code
shifts every character Python considers alphabetic, including the
non-ASCII letter `é` (code point 233), which is sent outside the model of
its own case range, so the round trip fails on `"é"` with `n = 1`. -/
theorem spec_c4_counterexample :
    decrypt_text (encrypt_text (S ("é")) 1) 1 ≠ S ("é") := by
  with_unfolding_all decide

/-- C4 (amended): for text whose every character is either non-alphabetic
or an ASCII Latin letter, `unshift(shift(t, n), n) = t` for every integer
`n`; and for all text and every integer `n`,
`shift(t, n) = shift(t, n mod 26)`. -/
theorem spec_c4 :
    (∀ (t : Str) (n : Int),
      (∀ c ∈ t, pyIsAlpha c = true → (65 ≤ c ∧ c ≤ 90) ∨ (97 ≤ c ∧ c ≤ 122)) →
      decrypt_text (encrypt_text t n) n = t) ∧
    (∀ (t : Str) (n : Int), encrypt_text t n = encrypt_text t (n % 26)) := by
  constructor
  · intro t n h
    unfold decrypt_text encrypt_text
    rw [List.map_map]
    apply map_eq_self_of_mem
    intro c hc
    by_cases ha : pyIsAlpha c = true
    · exact shiftChar_roundtrip n (h c hc ha)
    · have hf : pyIsAlpha c = false := by simpa using ha
      simp [Function.comp, shiftChar_not_alpha hf]
  · intro t n
    unfold encrypt_text
    have h26 : n % 26 % 26 = n % 26 := by omega
    rw [h26]

/-- C4 witness: the round trip at the concrete ASCII text
`"Hello, World!"` and shift `33`. -/
theorem spec_c4_witness :
    decrypt_text (encrypt_text (S ("Hello, World!")) 33) 33 = S ("Hello, World!") :=
  spec_c4.1 (S ("Hello, World!")) 33 (by with_unfolding_all decide)

/-- C5 counterexample: `é` (code point 233) lies outside both 26-letter
Latin ranges, yet `shift` does not copy it unchanged — Python's
`isalpha` is true for it, so it is shifted as a lowercase Latin letter
(to `n` at shift 7), and the claim fails. -/
theorem spec_c5_counterexample :
    (233 < 65 ∨ 90 < 233) ∧ (233 < 97 ∨ 122 < 233) ∧ S ("é") = [233] ∧
    encrypt_text (S ("é")) 7 ≠ S ("é") ∧ encrypt_text (S ("é")) 7 = S ("n") := by
  with_unfolding_all decide

/-- C5 (amended): for every text and every shift, the output has the same
length as the input, and every character that Python's `isalpha`
classifies as non-alphabetic is copied unchanged at its position;
alphabetic letters of non-Latin scripts, however, are shifted, not
copied. -/
theorem spec_c5 :
    (∀ (t : Str) (n : Int), (encrypt_text t n).length = t.length) ∧
    (∀ (t : Str) (n : Int) (i : Nat) (c : Nat),
      t[i]? = some c → pyIsAlpha c = false → (encrypt_text t n)[i]? = some c) := by
  constructor
  · intro t n
    unfold encrypt_text
    exact List.length_map t _
  · intro t n i c hi hc
    unfold encrypt_text
    simp [List.getElem?_map, hi, shiftChar_not_alpha hc]

/-- C5 witness: in `"a!b"` under shift 3, the non-alphabetic `!` at
index 1 is copied unchanged. -/
theorem spec_c5_witness :
    (encrypt_text (S ("a!b")) 3)[1]? = some 33 :=
  spec_c5.2 (S ("a!b")) 3 1 33 (by with_unfolding_all decide) (by with_unfolding_all decide)

/-- The best-text component of the decoder, as the loop computes it. -/
theorem bfd_best_text (text : Str) :
    (brute_force_decrypt text).1 =
      ((attemptsFor text).foldl bestStep (0, none, none)).2.2 := by
  simp only [brute_force_decrypt]

/-- The best-shift component of the decoder, as the loop computes it. -/
theorem bfd_best_shift (text : Str) :
    (brute_force_decrypt text).2.1 =
      ((attemptsFor text).foldl bestStep (0, none, none)).2.1 := by
  simp only [brute_force_decrypt]

/-- The attempt-list component of the decoder: the stable descending
sort of the recorded attempts. -/
theorem bfd_attempts (text : Str) :
    (brute_force_decrypt text).2.2 = pySortDesc (attemptsFor text) := by
  simp only [brute_force_decrypt]

/-- C2: for every input, the attempt list returned by the decoder is
sorted by score descending with ties broken by ascending shift value, and
this ordering agrees with the running-best rule: when the decoder reports
a best, that best attempt sorts first in the attempt list, so on equal
best scores the lower shift value both wins and leads the ranking. -/
theorem spec_c2 (text : Str) :
    ((brute_force_decrypt text).2.2).Pairwise rankedBefore ∧
    (∀ (s : Nat) (p : Str), (brute_force_decrypt text).2.1 = some s →
      (brute_force_decrypt text).1 = some p →
      ((brute_force_decrypt text).2.2).head? = some (s, p, calculate_word_score p)) := by
  constructor
  · rw [bfd_attempts]
    unfold pySortDesc
    exact foldl_insertDesc_pairwise (attemptsFor text) [] List.Pairwise.nil
      (attemptsFor_pairwise_shift text) (by simp)
  · intro s p hs hp
    rw [bfd_best_shift] at hs
    rw [bfd_best_text] at hp
    rw [bfd_attempts]
    rcases decodeInv_holds (attemptsFor text) with ⟨hst, _⟩ | ⟨s0, t0, b, _, hst, hhead⟩
    · rw [hst] at hs
      exact Option.noConfusion hs
    · rw [hst] at hs hp
      cases Option.some.inj hs
      cases Option.some.inj hp
      have hmem : (s, p, b) ∈ attemptsFor text :=
        (pySortDesc_perm (attemptsFor text)).subset
          (List.mem_of_mem_head? (Option.mem_def.mpr hhead))
      obtain ⟨_, h2, h3⟩ := mem_attemptsFor hmem
      have h2x : p = decrypt_text text ((s : Nat) : Int) := h2
      have h3x : b = calculate_word_score (decrypt_text text ((s : Nat) : Int)) := h3
      rw [hhead]
      rw [show b = calculate_word_score p from by rw [h3x, ← h2x]]

/-- C2 witness: on the ciphertext `"uif dbu"` the decoder finds best
shift 1 with plaintext `"the cat"`, and that attempt heads the returned
ranking. -/
theorem spec_c2_witness :
    ((brute_force_decrypt (S ("uif dbu"))).2.2).head? =
      some (1, S ("the cat"), calculate_word_score (S ("the cat"))) :=
  (spec_c2 (S ("uif dbu"))).2 1 (S ("the cat"))
    (by with_unfolding_all decide) (by with_unfolding_all decide)

/-- C3: on every input on which no shift scores strictly above 0.0 (in
particular the empty ciphertext), the decoder returns `None` for both the
best shift and the best plaintext, and still returns 26 attempts, all
scoring 0.0; the embedding is a total function, so no exception can
arise. -/
theorem spec_c3 (text : Str)
    (h : ∀ s : Nat, s < 26 → calculate_word_score (decrypt_text text (s : Int)) ≤ 0) :
    (brute_force_decrypt text).2.1 = none ∧ (brute_force_decrypt text).1 = none ∧
    ((brute_force_decrypt text).2.2).length = 26 ∧
    (∀ a ∈ (brute_force_decrypt text).2.2, a.2.2 = 0) := by
  have hall : ∀ a ∈ attemptsFor text, a.2.2 ≤ 0 := by
    intro a ha
    obtain ⟨h1, _, h3⟩ := mem_attemptsFor ha
    rw [h3]
    exact h a.1 h1
  have hfold := foldl_bestStep_const (attemptsFor text) 0 (none, none) hall
  refine ⟨?_, ?_, ?_, ?_⟩
  · rw [bfd_best_shift, hfold]
  · rw [bfd_best_text, hfold]
  · rw [bfd_attempts, (pySortDesc_perm (attemptsFor text)).length_eq]
    simp [attemptsFor]
  · intro a ha
    rw [bfd_attempts] at ha
    have hmem : a ∈ attemptsFor text := (pySortDesc_perm (attemptsFor text)).subset ha
    obtain ⟨_, _, h3⟩ := mem_attemptsFor hmem
    refine le_antisymm (hall a hmem) ?_
    rw [h3]
    exact calculate_word_score_nonneg _

/-- C3 witness: the empty ciphertext scores 0.0 at every shift, and the
decoder returns no best shift, no best plaintext, and 26 zero-score
attempts. -/
theorem spec_c3_witness :
    (brute_force_decrypt (S (""))).2.1 = none ∧ (brute_force_decrypt (S (""))).1 = none ∧
    ((brute_force_decrypt (S (""))).2.2).length = 26 ∧
    (∀ a ∈ (brute_force_decrypt (S (""))).2.2, a.2.2 = 0) :=
  spec_c3 (S ("")) (by with_unfolding_all decide)

/-- C6: for every text, the score equals the count of whitespace-split,
punctuation-stripped, lower-cased non-empty tokens belonging to the fixed
reference set divided by the total count of such cleaned tokens (0.0 with
no cleaned tokens), and the score always lies in the interval [0, 1]. -/
theorem spec_c6 (t : Str) :
    calculate_word_score t = specScore t ∧
    0 ≤ calculate_word_score t ∧ calculate_word_score t ≤ 1 :=
  ⟨calculate_word_score_eq_specScore t, calculate_word_score_nonneg t,
    calculate_word_score_le_one t⟩

/-- C7 counterexample: the fixed literal splits into the seven
whitespace tokens the specification itself lists, so `word_count` is 7,
not 6 as the claim states. -/
theorem spec_c7_counterexample :
    (analyze_text (S ("The cat sat. 2 Dogs ran racecar!"))).word_count ≠ 6 := by
  with_unfolding_all decide

/-- C7 (amended): `analyze("The cat sat. 2 Dogs ran racecar!")` yields
`word_count = 7`, a word-length distribution containing the entry
`3 -> 3`, `palindrome_words = ["racecar!"]` and `digit_count = 1`. -/
theorem spec_c7 :
    (analyze_text (S ("The cat sat. 2 Dogs ran racecar!"))).word_count = 7 ∧
    (3, 3) ∈ (analyze_text (S ("The cat sat. 2 Dogs ran racecar!"))).word_length_distribution ∧
    (analyze_text (S ("The cat sat. 2 Dogs ran racecar!"))).palindrome_words = [S ("racecar!")] ∧
    (analyze_text (S ("The cat sat. 2 Dogs ran racecar!"))).digit_count = 1 := by
  with_unfolding_all decide

/-- C8: every percentage-style field guards its division by zero:
the empty text yields 0.0 for the vowel percentage, the average word
length and the letter, digit and space percentages; the vowel percentage
is 0.0 whenever there is no alphabetic character; and the average word
length is 0.0 whenever there is no token.  The embedding is a total
function, so no division error can propagate. -/
theorem spec_c8 :
    ((full_analysis (S (""))).base.vowel_percentage = 0 ∧
     (full_analysis (S (""))).base.average_word_length = 0 ∧
     (full_analysis (S (""))).letter_percentage = 0 ∧
     (full_analysis (S (""))).digit_percentage = 0 ∧
     (full_analysis (S (""))).space_percentage = 0) ∧
    (∀ t : Str, t.countP pyIsAlpha = 0 → (analyze_text t).vowel_percentage = 0) ∧
    (∀ t : Str, pySplit t = [] → (analyze_text t).average_word_length = 0) := by
  refine ⟨by with_unfolding_all decide, ?_, ?_⟩
  · intro t h
    simp [analyze_text, h]
  · intro t h
    simp [analyze_text, h]

/-- C8 witness: a digits-only text has vowel percentage 0.0 and a
whitespace-only text has average word length 0.0. -/
theorem spec_c8_witness :
    (analyze_text (S ("123"))).vowel_percentage = 0 ∧
    (analyze_text (S (" "))).average_word_length = 0 :=
  ⟨spec_c8.2.1 (S ("123")) (by with_unfolding_all decide),
   spec_c8.2.2 (S (" ")) (by with_unfolding_all decide)⟩

/-- C9: the decoder reports a best shift exactly when it reports a best
plaintext, and a reported best shift lies in [0, 25] with the reported
plaintext equal to the decryption of the ciphertext at that shift. -/
theorem spec_c9 (text : Str) :
    ((brute_force_decrypt text).2.1 = none ↔ (brute_force_decrypt text).1 = none) ∧
    (∀ (s : Nat) (p : Str), (brute_force_decrypt text).2.1 = some s →
      (brute_force_decrypt text).1 = some p →
      s ≤ 25 ∧ p = decrypt_text text (s : Int)) := by
  rcases decodeInv_holds (attemptsFor text) with ⟨hst, _⟩ | ⟨s0, t0, b, _, hst, hhead⟩
  · constructor
    · rw [bfd_best_shift, bfd_best_text, hst]
      simp
    · intro s p hs hp
      rw [bfd_best_shift, hst] at hs
      exact Option.noConfusion hs
  · constructor
    · rw [bfd_best_shift, bfd_best_text, hst]
      simp
    · intro s p hs hp
      rw [bfd_best_shift, hst] at hs
      rw [bfd_best_text, hst] at hp
      cases Option.some.inj hs
      cases Option.some.inj hp
      have hmem : (s0, t0, b) ∈ attemptsFor text :=
        (pySortDesc_perm (attemptsFor text)).subset
          (List.mem_of_mem_head? (Option.mem_def.mpr hhead))
      obtain ⟨h1, h2, _⟩ := mem_attemptsFor hmem
      have h1x : s0 < 26 := h1
      have h2x : t0 = decrypt_text text ((s0 : Nat) : Int) := h2
      exact ⟨by omega, h2x⟩

/-- C9 witness: on `"uif dbu"` the reported shift 1 is in range and the
reported plaintext is the decryption at shift 1. -/
theorem spec_c9_witness :
    (1 : Nat) ≤ 25 ∧ S ("the cat") = decrypt_text (S ("uif dbu")) (1 : Int) :=
  (spec_c9 (S ("uif dbu"))).2 1 (S ("the cat"))
    (by with_unfolding_all decide) (by with_unfolding_all decide)

/-- C10: whenever `get_shift_between_texts` returns a shift, the shift
lies in [0, 25] and encrypting the original with it reproduces the full
encrypted text. -/
theorem spec_c10 (o e : Str) (s : Int) (h : get_shift_between_texts o e = some s) :
    0 ≤ s ∧ s < 26 ∧ encrypt_text o s = e :=
  getShiftAux_sound o e (o.zip e) s h

/-- C10 witness: between `"abc"` and `"bcd"` the function returns shift
1, which is in range and reproduces the encrypted text. -/
theorem spec_c10_witness :
    (0 : Int) ≤ 1 ∧ (1 : Int) < 26 ∧ encrypt_text (S ("abc")) 1 = S ("bcd") :=
  spec_c10 (S ("abc")) (S ("bcd")) 1 (by with_unfolding_all decide)
